import Mathlib

/-!
# Verification of the kule glyph-vectorization pipeline

A shallow embedding, in Lean 4, of the glyph vectorization pipeline of the
`kule` crate (files `src/font.rs`, `src/draw.rs`, `src/error.rs`), together
with theorems settling the specification's claims about it.

Modelling conventions, used throughout:

* Machine integers (`usize`, `u32`, `u16`, coverage bytes `u8`) are modelled
  as `Nat`.  No arithmetic in the embedded code can overflow a `usize` for
  the inputs the theorems quantify over, and coverage bytes are only ever
  compared with `0`.
* `f32` values are modelled by their IEEE-754 bit patterns (`Nat` values
  below `2^32`) wherever the source only stores, compares or transmutes
  them: `GlyphCache::glyph` keys its map by `transmute::<f32, u32>(size)`,
  so carrying the bit pattern is an exact model and `transmute` becomes the
  identity.  Vertex coordinates produced by the external tessellator are
  modelled as pairs of rationals (every finite `f32` is a rational; the
  claims only ever compare vertex lists structurally).
* The external collaborators — the `fontdue` rasterizer, the `fontdue`
  layout engine and the `lyon` fill tessellator — are not part of the
  repository's core and are passed in as explicit function parameters,
  exactly at the interface the source uses them.
* Rust `panic!`/`.unwrap()` on a fallible external result is modelled by
  `Except.error` propagation; every in-repository `.unwrap()` that cannot
  fail is modelled by the value it returns (with the impossibility proved
  where a claim depends on it).
* `HashSet`/`HashMap` iteration order is unspecified in Rust; the embedding
  fixes the order in which elements were inserted (association/insertion
  lists without duplicate keys).  The loops modelled here never exploit a
  particular order.
-/

namespace Kule

/-- Glyph metrics as returned by the rasterizer (`fontdue::Metrics`).
Only `width` and `height` are read by the pipeline; the remaining
`fontdue` fields are never touched by the code under verification. -/
structure Metrics where
  width : Nat
  height : Nat
  deriving DecidableEq

/-- A 2D vertex position (`Vec2 = [f32; 2]` in the source); finite `f32`
coordinates are represented exactly as rationals. -/
abbrev Vec2 := Rat × Rat

/-- `GlyphGeometry` from `font.rs`: tessellated vertices plus the triangle
index list (an `Rc<Vec<u16>>` in the source; reference-counted sharing is a
memory-layout matter, the value it shares is this list). -/
structure GlyphGeometry where
  vertices : List Vec2
  indices : List Nat
  deriving DecidableEq

/-- The IEEE-754 bit pattern of the `f32` literal `100.0`, the fixed pixel
size at which `GlyphCache::vectorize` invokes `Font::rasterize`
(`font.rs` line 83: `self.font.rasterize(ch, 100.0)`). -/
def bits100 : Nat := 0x42C80000

/-- The IEEE-754 bit pattern of the `f32` literal `200.0`. -/
def bits200 : Nat := 0x43480000

/-- The IEEE-754 bit pattern of `0.0f32`. -/
def posZeroBits : Nat := 0

/-- The IEEE-754 bit pattern of `-0.0f32`; numerically equal to `0.0` but a
distinct bit pattern. -/
def negZeroBits : Nat := 0x80000000

/-- The rasterization interface consumed by the cache
(`Font::rasterize(ch, size) -> (Metrics, Vec<u8>)` of the external
`fontdue` crate): a deterministic function from a character and an `f32`
pixel size (carried as its bit pattern) to metrics plus a row-major
coverage bitmap. -/
abbrev FontFn := Char → Nat → Metrics × List Nat

/-- One event of a `lyon` fill path, as produced by `Path::builder()`
(`move_to` / `line_to` / `close`). -/
inductive PathEvent where
  | moveTo (p : Nat × Nat)
  | lineTo (p : Nat × Nat)
  | close
  deriving DecidableEq

/-- The tessellation interface consumed by `vectorize`
(`FillTessellator::tessellate_path` of the external `lyon` crate): from a
fill path to either vertex/index buffers or a tessellation error. -/
abbrev Tessellator := List PathEvent → Except String GlyphGeometry

/-- The closure `get` of `GlyphCache::vectorize` (`font.rs` line 84):
`|[x, y]| bytes[y * metrics.width + x] > 0`.  The source indexes
unconditionally; it is only ever applied to in-bounds coordinates, where
`getD` agrees with it. -/
def getPixel (m : Metrics) (bytes : List Nat) (p : Nat × Nat) : Bool :=
  bytes.getD (p.2 * m.width + p.1) 0 > 0

/-- `neighbors` from `font.rs` (lines 171–204): the eight neighbor slots of
`p` in order left, right, top, bottom, then the four corners; a slot is
`none` when out of bounds, and the corner slots are additionally `none`
when `corners` is `false`. -/
def neighbors (p : Nat × Nat) (width height : Nat) (corners : Bool) :
    List (Option (Nat × Nat)) :=
  let x := p.1
  let y := p.2
  let l := if x > 0 then some (x - 1, y) else none
  let r := if x < width - 1 then some (x + 1, y) else none
  let t := if y > 0 then some (x, y - 1) else none
  let b := if y < height - 1 then some (x, y + 1) else none
  let x1y2 := fun (a b : Nat × Nat) => (a.1, b.2)
  let zipMap := fun (u v : Option (Nat × Nat)) =>
    u.bind (fun uv => v.map (fun vv => x1y2 uv vv))
  let tl := if corners then zipMap l t else none
  let tr := if corners then zipMap r t else none
  let bl := if corners then zipMap l b else none
  let br := if corners then zipMap r b else none
  [l, r, t, b, tl, tr, bl, br]

/-- The `empty_count` of `GlyphCache::vectorize` (lines 92–94): among the
eight neighbor slots of `p` (corners included), the number that are either
out of bounds (`none`, counted as uncovered) or uncovered. -/
def emptyCount (m : Metrics) (bytes : List Nat) (p : Nat × Nat) : Nat :=
  ((neighbors p m.width m.height true).filter
    (fun n => n.elim true (fun q => !getPixel m bytes q))).length

/-- One iteration of the edge-collection loop of `GlyphCache::vectorize`
(lines 87–98), at byte index `i`: skip if the byte is zero or the pixel is
already classified, otherwise classify it as an edge pixel when its empty
neighbor count lies in `[1, 7]`. -/
def edgeStep (m : Metrics) (bytes : List Nat) (edges : List (Nat × Nat))
    (i : Nat) : List (Nat × Nat) :=
  if bytes.getD i 0 = 0 ∨ (i % m.width, i / m.width) ∈ edges then edges
  else if 1 ≤ emptyCount m bytes (i % m.width, i / m.width) ∧
      emptyCount m bytes (i % m.width, i / m.width) ≤ 7 then
    edges ++ [(i % m.width, i / m.width)]
  else edges

/-- The edge-collection loop of `GlyphCache::vectorize` (lines 85–98):
fold `edgeStep` over all byte indices.  The resulting list is the
`edges: HashSet<[usize; 2]>` of the source, in insertion order. -/
def collectEdges (m : Metrics) (bytes : List Nat) : List (Nat × Nat) :=
  (List.range bytes.length).foldl (edgeStep m bytes) []

/-- The inner contour-extension loop of `GlyphCache::vectorize`
(lines 128–143), with an explicit fuel argument standing for the loop's
termination measure: look at the orthogonal neighbors of the tail pixel
`p` that are still unclaimed, stop if there are none, otherwise remove
them all from the set and append only the first to the contour.  Each
iteration removes at least one pixel, so fuel `edges.length` computes the
loop exactly (`traceFromFuel_stable`). -/
def traceFromFuel (width height : Nat) :
    Nat → Nat × Nat → List (Nat × Nat) → List (Nat × Nat) × List (Nat × Nat)
  | 0, _, edges => ([], edges)
  | fuel + 1, p, edges =>
    let ne := ((neighbors p width height false).filterMap id).filter
      (fun e => e ∈ edges)
    match ne with
    | [] => ([], edges)
    | q :: _ =>
      let edges' := edges.filter (fun e => ¬ e ∈ ne)
      let res := traceFromFuel width height fuel q edges'
      (q :: res.1, res.2)

/-- The inner contour-extension loop, fueled by its own termination
measure: returns the traced tail (excluding the start pixel `p`) and the
remaining unclaimed pixels. -/
def traceFrom (width height : Nat) (p : Nat × Nat)
    (edges : List (Nat × Nat)) : List (Nat × Nat) × List (Nat × Nat) :=
  traceFromFuel width height edges.length p edges

/-- The outer contour-grouping loop of `GlyphCache::vectorize`
(lines 122–144), with fuel standing for its termination measure: while
pixels remain, take one as the start of a new contour and extend it with
`traceFrom`.  The source takes an arbitrary element of the `HashSet`; the
embedding takes the head of the insertion-order list.  Each iteration
consumes the start pixel, so fuel `edges.length` computes the loop exactly
(`tracePolysFuel_stable`). -/
def tracePolysFuel (width height : Nat) :
    Nat → List (Nat × Nat) → List (List (Nat × Nat))
  | 0, _ => []
  | _ + 1, [] => []
  | fuel + 1, first :: rest =>
    let res := traceFrom width height first rest
    (first :: res.1) :: tracePolysFuel width height fuel res.2

/-- The contour tracer: group the edge-pixel set into contours
(`polys` in the source). -/
def tracePolys (width height : Nat) (edges : List (Nat × Nat)) :
    List (List (Nat × Nat)) :=
  tracePolysFuel width height edges.length edges

/-- The path events emitted for one contour by `GlyphCache::vectorize`
(lines 148–157): `move_to` the first pixel, `line_to` the remaining
pixels, then — because the final `line_to(point(x, y))` of the source
reads the outer `x, y` bindings, which still hold the first pixel —
`line_to` back to the first pixel, and `close`.  On an empty contour the
source would panic on `poly_iter.next().unwrap()`; contours are never
empty (`tracePolysFuel_spec`), and the embedding returns no events. -/
def polyEvents : List (Nat × Nat) → List PathEvent
  | [] => []
  | p :: rest =>
    PathEvent.moveTo p :: (rest.map PathEvent.lineTo ++
      [PathEvent.lineTo p, PathEvent.close])

/-- The fill path built from all contours (lines 147–158). -/
def buildPath (polys : List (List (Nat × Nat))) : List PathEvent :=
  polys.foldl (fun acc poly => acc ++ polyEvents poly) []

/-- `GlyphCache::vectorize` (lines 82–168): rasterize the character — at
the fixed size `100.0`, the `_size` argument is unused in the source —
then detect boundary pixels, trace contours, and tessellate.  The two
debug `print!` loops of the source (lines 100–120) only write to stdout
and are omitted.  The `.unwrap()` on the tessellator's `Result`
(line 164) is modelled by propagating the error: `Except.error` is the
panic that aborts the call. -/
def vectorize (font : FontFn) (tess : Tessellator) (ch : Char)
    ( _size : Nat) : Except String (Metrics × GlyphGeometry) :=
  let mb := font ch bits100
  let metrics := mb.1
  let bytes := mb.2
  let edges := collectEdges metrics bytes
  let polys := tracePolys metrics.width metrics.height edges
  match tess (buildPath polys) with
  | Except.ok g => Except.ok (metrics, GlyphGeometry.mk g.vertices g.indices)
  | Except.error e => Except.error e

/-- Lookup in an association list by key, the model of `HashMap` lookup
(first — and, by construction, only — entry with the key). -/
def assocLookup {α β : Type} [DecidableEq α] :
    List (α × β) → α → Option β
  | [], _ => none
  | (k, v) :: rest, key => if k = key then some v else assocLookup rest key

/-- Insertion in an association list, the model of `HashMap::insert`:
replace the entry if the key is present, else append. -/
def assocInsert {α β : Type} [DecidableEq α] :
    List (α × β) → α → β → List (α × β)
  | [], k, v => [(k, v)]
  | (k', v') :: rest, k, v =>
    if k' = k then (k, v) :: rest else (k', v') :: assocInsert rest k v

/-- `GlyphCache` from `font.rs` (lines 52–55): the font (whose only role
in this file is the rasterization function it provides) plus the memoized
geometry keyed by `(char, u32)` — the `u32` being the transmuted bit
pattern of the requested `f32` size. -/
structure GlyphCache where
  font : FontFn
  geometry : List ((Char × Nat) × (Metrics × GlyphGeometry))

/-- `GlyphCache::glyph` (lines 74–81): key the cache by
`(ch, transmute::<f32, u32>(size))`; on a hit return the stored entry, on
a miss run `vectorize`, insert, and return the freshly stored entry
(the source's `self.geometry.get(&key).unwrap()`; the `unwrap` cannot
fail and the unreachable arm is modelled by an error value). -/
def GlyphCache.glyph (tess : Tessellator) (c : GlyphCache) (ch : Char)
    (sizeBits : Nat) :
    Except String (GlyphCache × (Metrics × GlyphGeometry)) :=
  match assocLookup c.geometry (ch, sizeBits) with
  | some v => Except.ok (c, v)
  | none =>
    match vectorize c.font tess ch sizeBits with
    | Except.error e => Except.error e
    | Except.ok gd =>
      let c' : GlyphCache :=
        GlyphCache.mk c.font (c.geometry ++ [((ch, sizeBits), gd)])
      match assocLookup c'.geometry (ch, sizeBits) with
      | some v => Except.ok (c', v)
      | none => Except.error "entry absent right after insertion"

/-- A sequence of `glyph` calls against one cache, in order (the driver
used to state cache-growth and idempotence claims). -/
def runGlyphs (tess : Tessellator) :
    GlyphCache → List (Char × Nat) → Except String GlyphCache
  | c, [] => Except.ok c
  | c, k :: ks =>
    match GlyphCache.glyph tess c k.1 k.2 with
    | Except.ok (c', _) => runGlyphs tess c' ks
    | Except.error e => Except.error e

/-- The crate error type (`error.rs`).  `DisplayCreation` and
`SwapBuffers` are declared in `error.rs`; `Static` is the variant
`Fonts::load` constructs for font-parse failures (`font.rs` line 36,
`crate::Error::Static`) — its declaration is not among the provided
sources, so it is modelled from that use site and the spec's "distinct
error kind", carrying the `&'static str` message `fontdue` reports. -/
inductive Error where
  | DisplayCreation (msg : String)
  | SwapBuffers (msg : String)
  | Static (msg : String)
  deriving DecidableEq

/-- `Fonts` from `font.rs` (line 20): the registry mapping application
font identifiers to glyph caches. -/
structure Fonts (G : Type) where
  map : List (G × GlyphCache)

/-- `Fonts::load` (`font.rs` lines 32–40).  Modelled from the spec:
`Font::from_bytes(data, ...)` is `fontdue` code not among the provided
sources, so its outcome on the given bytes is passed in as `parsed` —
`Except.ok` carries the parsed font's rasterization function, and
`Except.error` the parse failure.  Rust evaluates the argument of
`self.0.insert(id, ...?...)` first, so on a parse error the `?` returns
before any insertion: the registry is untouched and the caller gets
`Err(Error::Static(msg))`. -/
def Fonts.load {G : Type} [DecidableEq G] (f : Fonts G) (id : G)
    (parsed : Except String FontFn) : Fonts G × Except Error Unit :=
  match parsed with
  | Except.error e => (f, Except.error (Error.Static e))
  | Except.ok font =>
    (Fonts.mk (assocInsert f.map id (GlyphCache.mk font [])),
      Except.ok ())

/-- `Fonts::get` (`font.rs` lines 41–43): registry lookup, `None` when the
identifier was never loaded. -/
def Fonts.get {G : Type} [DecidableEq G] (f : Fonts G) (id : G) :
    Option GlyphCache :=
  assocLookup f.map id

/-- An RGBA color (`Col` in the source); finite `f32` channels represented
as rationals.  The claims never inspect channel values. -/
abbrev Col := Rat × Rat × Rat × Rat

/-- `GlyphSize` from `draw.rs` (lines 334–364): the pixel resolution used
when rasterizing/vectorizing, plus the on-screen scale. -/
structure GlyphSize where
  resolution : Nat
  scale : Rat

/-- The two `DrawType` variants of `draw.rs` (lines 471–490) that the font
claims concern: `Empty` (the unknown-font fallback) and `Character`.  The
shape variants (`Rectangle`, `Ellipse`, `Polygon`, `Generic`) play no role
in any claim and are omitted. -/
inductive DrawType where
  | empty
  | character (vertices : List Vec2) (indices : List Nat) (ch : Char)
      (resolution : Nat)

/-- A colored vertex (`Vertex` in `draw.rs`). -/
structure Vertex where
  pos : Vec2
  color : Col

/-- `Transformable::unscaled_vertices` (`draw.rs` lines 669–722),
restricted to the modelled variants: `Empty` yields no vertices at all —
drawing it is a no-op — and `Character` colors its vertex list. -/
def unscaledVertices (color : Col) : DrawType → List Vertex
  | DrawType.empty => []
  | DrawType.character vs _ _ _ => vs.map (fun p => Vertex.mk p color)

/-- `Drawer::character` (`draw.rs` lines 378–411): look the font up in the
registry; if present, fetch (possibly vectorizing) the glyph and emit one
`Character` draw scaled by `scale / resolution`, writing the updated cache
back; if the identifier was never loaded, emit the `Empty` draw instead.
The `Except` propagates the tessellation panic of the miss path. -/
def character {G : Type} [DecidableEq G] (tess : Tessellator)
    (f : Fonts G) (ch : Char) (size : GlyphSize) (fid : G) :
    Except String (Fonts G × List DrawType) :=
  match Fonts.get f fid with
  | none => Except.ok (f, [DrawType.empty])
  | some glyphs =>
    match GlyphCache.glyph tess glyphs ch size.resolution with
    | Except.error e => Except.error e
    | Except.ok (glyphs', v) =>
      let k := size.scale / (size.resolution : Rat)
      Except.ok (Fonts.mk (assocInsert f.map fid glyphs'),
        [DrawType.character (v.2.vertices.map (fun p => (p.1 * k, p.2 * k)))
          v.2.indices ch size.resolution])

/-- The glyph-fetch loop inside `Drawer::text` (`draw.rs` lines 437–452):
one `Character` draw per laid-out character, each fetched through the
cache.  The per-glyph offsets `gp.x`/`gp.y` provided by the external
layout are floats that no claim inspects; they are not modelled. -/
def textGo (tess : Tessellator) (size : GlyphSize) :
    GlyphCache → List Char → Except String (GlyphCache × List DrawType)
  | glyphs, [] => Except.ok (glyphs, [])
  | glyphs, ch :: rest =>
    match GlyphCache.glyph tess glyphs ch size.resolution with
    | Except.error e => Except.error e
    | Except.ok (glyphs', v) =>
      match textGo tess size glyphs' rest with
      | Except.error e => Except.error e
      | Except.ok (glyphs'', ds) =>
        Except.ok (glyphs'',
          DrawType.character v.2.vertices v.2.indices ch size.resolution
            :: ds)

/-- `Drawer::text` (`draw.rs` lines 412–468).  Modelled from the spec:
`fontdue`'s `Layout::layout_horizontal` is external code not among the
provided sources, so the sequence of characters it lays out is passed in
as the `layoutChars` function.  If the font identifier was never loaded,
the whole call falls back to the `Empty` draw. -/
def text {G : Type} [DecidableEq G] (tess : Tessellator)
    (layoutChars : String → Nat → List Char) (f : Fonts G) (s : String)
    (size : GlyphSize) (fid : G) :
    Except String (Fonts G × List DrawType) :=
  match Fonts.get f fid with
  | none => Except.ok (f, [DrawType.empty])
  | some glyphs =>
    match textGo tess size glyphs (layoutChars s size.resolution) with
    | Except.error e => Except.error e
    | Except.ok (glyphs', ds) =>
      Except.ok (Fonts.mk (assocInsert f.map fid glyphs'), ds)

/-! ## Concrete stub collaborators

Executable instantiations of the external interfaces, used by the witness
and counterexample theorems. -/

/-- A stub font whose every rasterization is a 1×1 all-zero bitmap (the
shape of a glyph with no visible coverage, e.g. the space character). -/
def blankFont : FontFn := fun _ _ => (Metrics.mk 1 1, [0])

/-- A stub font that reveals the size it was rasterized at through the
returned metrics: size `100.0` (bit pattern `bits100`) yields an empty
0×0 bitmap, any other size a 1×1 bitmap with one covered pixel. -/
def sizeProbeFont : FontFn := fun _ s =>
  if s = bits100 then (Metrics.mk 0 0, []) else (Metrics.mk 1 1, [255])

/-- A stub font producing a 2×1 bitmap with both pixels covered: both are
boundary pixels, and tracing yields the single degenerate (zero-area)
contour `[(0,0), (1,0)]`. -/
def stripFont : FontFn := fun _ _ => (Metrics.mk 2 1, [255, 255])

/-- A stub tessellator that always succeeds with empty geometry. -/
def emptyTess : Tessellator := fun _ => Except.ok (GlyphGeometry.mk [] [])

/-- A stub tessellator that reports a tessellation error on every path,
exercising the `Err` arm of `lyon`'s `tessellate_path` result. -/
def failTess : Tessellator := fun _ => Except.error "tessellation error"

/-! ## Supporting lemmas: the association-list cache -/

instance {ε α : Type} [DecidableEq ε] [DecidableEq α] :
    DecidableEq (Except ε α) := fun x y =>
  match x, y with
  | Except.ok a, Except.ok b =>
    if h : a = b then isTrue (by rw [h])
    else isFalse (fun hh => by cases hh; exact h rfl)
  | Except.error a, Except.error b =>
    if h : a = b then isTrue (by rw [h])
    else isFalse (fun hh => by cases hh; exact h rfl)
  | Except.ok _, Except.error _ => isFalse (fun hh => by cases hh)
  | Except.error _, Except.ok _ => isFalse (fun hh => by cases hh)

theorem assocLookup_append_left {α β : Type} [DecidableEq α]
    {l₁ : List (α × β)} (l₂ : List (α × β)) {k : α} {v : β}
    (h : assocLookup l₁ k = some v) :
    assocLookup (l₁ ++ l₂) k = some v := by
  induction l₁ with
  | nil => simp [assocLookup] at h
  | cons hd tl ih =>
    obtain ⟨k', v'⟩ := hd
    by_cases hk : k' = k
    · simpa [assocLookup, hk] using h
    · simp only [assocLookup, if_neg hk, List.cons_append] at h ⊢
      exact ih h

theorem assocLookup_append_right {α β : Type} [DecidableEq α]
    {l₁ : List (α × β)} (l₂ : List (α × β)) {k : α}
    (h : assocLookup l₁ k = none) :
    assocLookup (l₁ ++ l₂) k = assocLookup l₂ k := by
  induction l₁ with
  | nil => simp [assocLookup]
  | cons hd tl ih =>
    obtain ⟨k', v'⟩ := hd
    by_cases hk : k' = k
    · simp [assocLookup, hk] at h
    · simp only [assocLookup, if_neg hk, List.cons_append] at h ⊢
      exact ih h

theorem assocLookup_singleton_self {α β : Type} [DecidableEq α]
    (k : α) (v : β) : assocLookup [(k, v)] k = some v := by
  simp [assocLookup]

/-- Anatomy of a successful `GlyphCache::glyph` call: either it was a
cache hit — the cache is returned untouched with the stored value — or a
miss, in which case `vectorize` ran, succeeded, and its result was
appended under the requested key. -/
theorem glyph_cases {tess : Tessellator} {c c' : GlyphCache} {ch : Char}
    {s : Nat} {v : Metrics × GlyphGeometry}
    (h : GlyphCache.glyph tess c ch s = Except.ok (c', v)) :
    (assocLookup c.geometry (ch, s) = some v ∧ c' = c) ∨
    (assocLookup c.geometry (ch, s) = none ∧
      vectorize c.font tess ch s = Except.ok v ∧
      c' = GlyphCache.mk c.font (c.geometry ++ [((ch, s), v)])) := by
  unfold GlyphCache.glyph at h
  cases hl : assocLookup c.geometry (ch, s) with
  | some w =>
    rw [hl] at h
    cases h
    exact Or.inl ⟨rfl, rfl⟩
  | none =>
    rw [hl] at h
    cases hv : vectorize c.font tess ch s with
    | error e => rw [hv] at h; cases h
    | ok gd =>
      rw [hv] at h
      have hlk : assocLookup
          (GlyphCache.mk c.font (c.geometry ++ [((ch, s), gd)])).geometry
          (ch, s) = some gd := by
        simpa using
          (assocLookup_append_right [((ch, s), gd)] hl).trans
            (assocLookup_singleton_self _ _)
      simp only [hlk] at h
      cases h
      exact Or.inr ⟨rfl, rfl, rfl⟩

/-- A cache hit returns the stored entry and leaves the cache untouched,
for any tessellator (and hence performs no vectorization). -/
theorem glyph_hit {c : GlyphCache} {ch : Char} {s : Nat}
    {v : Metrics × GlyphGeometry}
    (h : assocLookup c.geometry (ch, s) = some v) (tess : Tessellator) :
    GlyphCache.glyph tess c ch s = Except.ok (c, v) := by
  unfold GlyphCache.glyph
  rw [h]

/-- Every successful `glyph` call stores its returned value under the
requested key. -/
theorem glyph_stores {tess : Tessellator} {c c' : GlyphCache} {ch : Char}
    {s : Nat} {v : Metrics × GlyphGeometry}
    (h : GlyphCache.glyph tess c ch s = Except.ok (c', v)) :
    assocLookup c'.geometry (ch, s) = some v := by
  rcases glyph_cases h with ⟨hl, rfl⟩ | ⟨hl, _, rfl⟩
  · exact hl
  · simpa using
      (assocLookup_append_right [((ch, s), v)] hl).trans
        (assocLookup_singleton_self _ _)

/-- No `glyph` call ever evicts or overwrites an existing cache entry. -/
theorem glyph_preserves {tess : Tessellator} {c c' : GlyphCache}
    {ch : Char} {s : Nat} {v : Metrics × GlyphGeometry}
    {k : Char × Nat} {w : Metrics × GlyphGeometry}
    (hk : assocLookup c.geometry k = some w)
    (h : GlyphCache.glyph tess c ch s = Except.ok (c', v)) :
    assocLookup c'.geometry k = some w := by
  rcases glyph_cases h with ⟨_, rfl⟩ | ⟨_, _, rfl⟩
  · exact hk
  · exact assocLookup_append_left _ hk

/-- A successful `glyph` call never changes the font. -/
theorem glyph_font {tess : Tessellator} {c c' : GlyphCache} {ch : Char}
    {s : Nat} {v : Metrics × GlyphGeometry}
    (h : GlyphCache.glyph tess c ch s = Except.ok (c', v)) :
    c'.font = c.font := by
  rcases glyph_cases h with ⟨_, rfl⟩ | ⟨_, _, rfl⟩ <;> rfl

/-- A sequence of `glyph` calls on pairwise-distinct keys, none already
cached, appends exactly those keys in order and preserves every existing
entry. -/
theorem runGlyphs_fresh {tess : Tessellator} :
    ∀ (keys : List (Char × Nat)) (c₀ c₁ : GlyphCache), keys.Nodup →
    (∀ k ∈ keys, assocLookup c₀.geometry k = none) →
    runGlyphs tess c₀ keys = Except.ok c₁ →
    c₁.geometry.map Prod.fst = c₀.geometry.map Prod.fst ++ keys ∧
    (∀ k v, assocLookup c₀.geometry k = some v →
      assocLookup c₁.geometry k = some v) := by
  intro keys
  induction keys with
  | nil =>
    intro c₀ c₁ _ _ hrun
    cases hrun
    exact ⟨by simp, fun k v hv => hv⟩
  | cons k ks ih =>
    intro c₀ c₁ hnd hfresh hrun
    unfold runGlyphs at hrun
    cases hg : GlyphCache.glyph tess c₀ k.1 k.2 with
    | error e => rw [hg] at hrun; cases hrun
    | ok p =>
      obtain ⟨c', v⟩ := p
      rw [hg] at hrun
      rcases glyph_cases hg with ⟨hl, _⟩ | ⟨_, _, hc'⟩
      · rw [hfresh k (List.mem_cons_self k ks)] at hl; cases hl
      · have hk : ((k.1, k.2) : Char × Nat) = k := rfl
        have hgeo : c'.geometry = c₀.geometry ++ [(k, v)] := by
          rw [hc', hk]
        have hfresh' : ∀ k' ∈ ks, assocLookup c'.geometry k' = none := by
          intro k' hk'
          have hne : k' ≠ k := by
            intro hkk
            exact (List.nodup_cons.mp hnd).1 (hkk ▸ hk')
          rw [hgeo,
            assocLookup_append_right _ (hfresh k' (List.mem_cons_of_mem _ hk'))]
          simp [assocLookup, hne.symm]
        obtain ⟨hmap, hpres⟩ :=
          ih c' c₁ (List.nodup_cons.mp hnd).2 hfresh' hrun
        constructor
        · rw [hmap, hgeo]
          simp
        · intro k₀ v₀ hv₀
          exact hpres k₀ v₀ (by rw [hgeo]; exact assocLookup_append_left _ hv₀)

/-- C3: calling `glyph(c, r)` twice returns the identical stored
`(Metrics, GlyphGeometry)` value both times; the second call returns the
cache unchanged and its result does not depend on the tessellator or the
font (so it performs no rasterization and no vectorization); and the
entry created by the first call survives, unchanged, every later `glyph`
call — exactly one vectorization per key for the cache's lifetime. -/
theorem c3_glyph_idempotent (tess : Tessellator) (c c₁ : GlyphCache)
    (ch : Char) (s : Nat) (v : Metrics × GlyphGeometry)
    (h : GlyphCache.glyph tess c ch s = Except.ok (c₁, v)) :
    GlyphCache.glyph tess c₁ ch s = Except.ok (c₁, v) ∧
    (∀ (tess' : Tessellator) (font' : FontFn),
      GlyphCache.glyph tess' (GlyphCache.mk font' c₁.geometry) ch s =
        Except.ok (GlyphCache.mk font' c₁.geometry, v)) ∧
    (∀ (tess₂ : Tessellator) (ch₂ : Char) (s₂ : Nat) (c₂ : GlyphCache)
        (v₂ : Metrics × GlyphGeometry),
      GlyphCache.glyph tess₂ c₁ ch₂ s₂ = Except.ok (c₂, v₂) →
      assocLookup c₂.geometry (ch, s) = some v) := by
  have hs := glyph_stores h
  exact ⟨glyph_hit hs tess,
    fun tess' font' =>
      glyph_hit
        (show assocLookup (GlyphCache.mk font' c₁.geometry).geometry
            (ch, s) = some v from hs) tess',
    fun tess₂ ch₂ s₂ c₂ v₂ h₂ => glyph_preserves hs h₂⟩

/-- The cache entry produced by vectorizing through `blankFont` and
`emptyTess`. -/
def blankEntry : Metrics × GlyphGeometry :=
  (Metrics.mk 1 1, GlyphGeometry.mk [] [])

theorem c3_glyph_idempotent_witness :
    GlyphCache.glyph emptyTess
        (GlyphCache.mk blankFont [(('A', bits100), blankEntry)]) 'A'
        bits100 =
      Except.ok
        (GlyphCache.mk blankFont [(('A', bits100), blankEntry)],
          blankEntry) :=
  (c3_glyph_idempotent emptyTess (GlyphCache.mk blankFont [])
    (GlyphCache.mk blankFont [(('A', bits100), blankEntry)]) 'A' bits100
    blankEntry rfl).1

/-- C9: requesting `N` pairwise-distinct, not-yet-cached
`(character, resolution)` keys adds exactly those `N` entries, in request
order, and no existing entry is ever evicted or overwritten, so the key
set grows monotonically over the sequence of `glyph` calls. -/
theorem c9_cache_growth (tess : Tessellator) (keys : List (Char × Nat))
    (c₀ c₁ : GlyphCache) (hnd : keys.Nodup)
    (hfresh : ∀ k ∈ keys, assocLookup c₀.geometry k = none)
    (hrun : runGlyphs tess c₀ keys = Except.ok c₁) :
    c₁.geometry.map Prod.fst = c₀.geometry.map Prod.fst ++ keys ∧
    c₁.geometry.length = c₀.geometry.length + keys.length ∧
    (∀ k v, assocLookup c₀.geometry k = some v →
      assocLookup c₁.geometry k = some v) := by
  obtain ⟨hmap, hpres⟩ := runGlyphs_fresh keys c₀ c₁ hnd hfresh hrun
  refine ⟨hmap, ?_, hpres⟩
  have := congrArg List.length hmap
  simpa using this

theorem c9_cache_growth_witness :
    (GlyphCache.mk blankFont
        [(('A', 0), blankEntry), (('B', 0), blankEntry),
          (('A', 1), blankEntry)]).geometry.map Prod.fst =
      (GlyphCache.mk blankFont []).geometry.map Prod.fst ++
        [('A', 0), ('B', 0), ('A', 1)] ∧
    (GlyphCache.mk blankFont
        [(('A', 0), blankEntry), (('B', 0), blankEntry),
          (('A', 1), blankEntry)]).geometry.length =
      (GlyphCache.mk blankFont []).geometry.length +
        ([('A', 0), ('B', 0), ('A', 1)] : List (Char × Nat)).length := by
  have h := c9_cache_growth emptyTess [('A', 0), ('B', 0), ('A', 1)]
    (GlyphCache.mk blankFont [])
    (GlyphCache.mk blankFont
      [(('A', 0), blankEntry), (('B', 0), blankEntry),
        (('A', 1), blankEntry)])
    (by decide) (fun k _ => rfl) rfl
  exact ⟨h.1, h.2.1⟩

/-- C10: the cache key is the raw 32-bit pattern of the `f32` size.
Starting from an empty cache, a call at the bit pattern of `0.0` and then
one at the bit pattern of `-0.0` — numerically equal sizes with distinct
patterns — are both misses: each runs its own vectorization and the cache
ends with two distinct entries; further calls at either bit-identical
size hit the corresponding entry and leave the cache unchanged. -/
theorem c10_bit_pattern_keys (tess : Tessellator) (c₀ c₁ c₂ : GlyphCache)
    (ch : Char) (v₁ v₂ : Metrics × GlyphGeometry)
    (h₀ : c₀.geometry = [])
    (h₁ : GlyphCache.glyph tess c₀ ch posZeroBits = Except.ok (c₁, v₁))
    (h₂ : GlyphCache.glyph tess c₁ ch negZeroBits = Except.ok (c₂, v₂)) :
    c₁.geometry = [((ch, posZeroBits), v₁)] ∧
    c₂.geometry = [((ch, posZeroBits), v₁), ((ch, negZeroBits), v₂)] ∧
    vectorize c₀.font tess ch posZeroBits = Except.ok v₁ ∧
    vectorize c₁.font tess ch negZeroBits = Except.ok v₂ ∧
    GlyphCache.glyph tess c₂ ch posZeroBits = Except.ok (c₂, v₁) ∧
    GlyphCache.glyph tess c₂ ch negZeroBits = Except.ok (c₂, v₂) := by
  have hbits : posZeroBits ≠ negZeroBits := by decide
  rcases glyph_cases h₁ with ⟨hl, _⟩ | ⟨_, hv₁, hc₁⟩
  · rw [h₀] at hl; cases hl
  · have hg₁ : c₁.geometry = [((ch, posZeroBits), v₁)] := by
      rw [hc₁, h₀]; rfl
    rcases glyph_cases h₂ with ⟨hl₂, _⟩ | ⟨_, hv₂, hc₂⟩
    · rw [hg₁] at hl₂
      simp [assocLookup, hbits] at hl₂
    · have hg₂ : c₂.geometry =
          [((ch, posZeroBits), v₁), ((ch, negZeroBits), v₂)] := by
        rw [hc₂, hg₁]; rfl
      have hlp : assocLookup c₂.geometry (ch, posZeroBits) = some v₁ := by
        rw [hg₂]; simp [assocLookup]
      have hln : assocLookup c₂.geometry (ch, negZeroBits) = some v₂ := by
        rw [hg₂]; simp [assocLookup, hbits]
      exact ⟨hg₁, hg₂, hv₁, hv₂, glyph_hit hlp tess, glyph_hit hln tess⟩

theorem c10_bit_pattern_keys_witness :
    (GlyphCache.mk blankFont
        [(('A', posZeroBits), blankEntry),
          (('A', negZeroBits), blankEntry)]).geometry =
      [(('A', posZeroBits), blankEntry),
        (('A', negZeroBits), blankEntry)] :=
  (c10_bit_pattern_keys emptyTess (GlyphCache.mk blankFont [])
    (GlyphCache.mk blankFont [(('A', posZeroBits), blankEntry)])
    (GlyphCache.mk blankFont
      [(('A', posZeroBits), blankEntry), (('A', negZeroBits), blankEntry)])
    'A' blankEntry blankEntry rfl rfl rfl).2.1

/-! ## Supporting lemmas: boundary detection -/

theorem edgeStep_mono {m : Metrics} {bytes : List Nat}
    {edges : List (Nat × Nat)} {i : Nat} {p : Nat × Nat}
    (h : p ∈ edges) : p ∈ edgeStep m bytes edges i := by
  unfold edgeStep
  split
  · exact h
  · split
    · exact List.mem_append_left _ h
    · exact h

theorem mem_edgeStep {m : Metrics} {bytes : List Nat}
    {edges : List (Nat × Nat)} {i : Nat} {p : Nat × Nat} :
    p ∈ edgeStep m bytes edges i ↔ p ∈ edges ∨
      (p = (i % m.width, i / m.width) ∧ bytes.getD i 0 ≠ 0 ∧
        (i % m.width, i / m.width) ∉ edges ∧
        1 ≤ emptyCount m bytes p ∧ emptyCount m bytes p ≤ 7) := by
  unfold edgeStep
  by_cases h0 : bytes.getD i 0 = 0 ∨ (i % m.width, i / m.width) ∈ edges
  · simp only [if_pos h0]
    constructor
    · exact Or.inl
    · rintro (h | ⟨hp, hb, hm, _⟩)
      · exact h
      · rcases h0 with h0 | h0
        · exact absurd h0 hb
        · exact absurd h0 hm
  · push_neg at h0
    simp only [if_neg (by tauto : ¬(bytes.getD i 0 = 0 ∨
      (i % m.width, i / m.width) ∈ edges))]
    by_cases hec : 1 ≤ emptyCount m bytes (i % m.width, i / m.width) ∧
        emptyCount m bytes (i % m.width, i / m.width) ≤ 7
    · simp only [if_pos hec, List.mem_append, List.mem_singleton]
      constructor
      · rintro (h | rfl)
        · exact Or.inl h
        · exact Or.inr ⟨rfl, h0.1, h0.2, hec.1, hec.2⟩
      · rintro (h | ⟨rfl, _, _, h1, h7⟩)
        · exact Or.inl h
        · exact Or.inr rfl
    · simp only [if_neg hec]
      constructor
      · exact Or.inl
      · rintro (h | ⟨rfl, _, _, h1, h7⟩)
        · exact h
        · exact absurd ⟨h1, h7⟩ hec

theorem mem_foldl_edgeStep_mono {m : Metrics} {bytes : List Nat}
    {p : Nat × Nat} :
    ∀ (l : List Nat) (acc : List (Nat × Nat)), p ∈ acc →
      p ∈ l.foldl (edgeStep m bytes) acc
  | [], _, h => h
  | _ :: tl, acc, h =>
    mem_foldl_edgeStep_mono tl (edgeStep m bytes acc _) (edgeStep_mono h)

theorem mem_collectEdges_aux (m : Metrics) (bytes : List Nat) :
    ∀ (n : Nat) (acc : List (Nat × Nat)) (p : Nat × Nat),
      p ∈ (List.range n).foldl (edgeStep m bytes) acc ↔
        p ∈ acc ∨ ∃ i, i < n ∧ p = (i % m.width, i / m.width) ∧
          bytes.getD i 0 ≠ 0 ∧
          1 ≤ emptyCount m bytes p ∧ emptyCount m bytes p ≤ 7 := by
  intro n
  induction n with
  | zero => simp
  | succ n ih =>
    intro acc p
    rw [List.range_succ, List.foldl_append, List.foldl_cons, List.foldl_nil]
    constructor
    · intro h
      rcases mem_edgeStep.mp h with h | ⟨hp, hb, _, h1, h7⟩
      · rcases (ih acc p).mp h with h | ⟨i, hi, rest⟩
        · exact Or.inl h
        · exact Or.inr ⟨i, Nat.lt_succ_of_lt hi, rest⟩
      · exact Or.inr ⟨n, Nat.lt_succ_self n, hp, hb, h1, h7⟩
    · rintro (h | ⟨i, hi, hp, hb, h1, h7⟩)
      · exact edgeStep_mono ((ih acc p).mpr (Or.inl h))
      · rcases Nat.lt_succ_iff_lt_or_eq.mp hi with hi | rfl
        · exact edgeStep_mono ((ih acc p).mpr (Or.inr ⟨i, hi, hp, hb, h1, h7⟩))
        · by_cases hmem : p ∈ (List.range i).foldl (edgeStep m bytes) acc
          · exact edgeStep_mono hmem
          · exact mem_edgeStep.mpr (Or.inr ⟨hp, hb, hp ▸ hmem, h1, h7⟩)

/-- Membership in the collected edge set, characterized per byte index:
exactly the decoded pixels of nonzero bytes whose empty-neighbor count
lies in `[1, 7]`.  In particular the source's `edges.contains(&p)`
re-classification guard never changes the outcome. -/
theorem mem_collectEdges {m : Metrics} {bytes : List Nat} {p : Nat × Nat} :
    p ∈ collectEdges m bytes ↔
      ∃ i, i < bytes.length ∧ p = (i % m.width, i / m.width) ∧
        bytes.getD i 0 ≠ 0 ∧
        1 ≤ emptyCount m bytes p ∧ emptyCount m bytes p ≤ 7 := by
  unfold collectEdges
  rw [mem_collectEdges_aux]
  simp

/-- C4: a pixel `(x, y)` of the coverage bitmap is classified as a
boundary pixel iff its coverage byte is nonzero and the number of
uncovered entries among its eight neighbor slots (4 orthogonal +
4 diagonal, out-of-bounds slots counting as uncovered) lies in the
inclusive range `[1, 7]`. -/
theorem c4_boundary_iff (m : Metrics) (bytes : List Nat) (x y : Nat)
    (hlen : bytes.length = m.width * m.height)
    (hx : x < m.width) (hy : y < m.height) :
    ((x, y) ∈ collectEdges m bytes ↔
      (0 < bytes.getD (y * m.width + x) 0 ∧
        1 ≤ emptyCount m bytes (x, y) ∧
        emptyCount m bytes (x, y) ≤ 7)) := by
  have hw : 0 < m.width := Nat.lt_of_le_of_lt (Nat.zero_le x) hx
  rw [mem_collectEdges]
  constructor
  · rintro ⟨i, hi, hp, hb, h1, h7⟩
    have hpx : x = i % m.width := congrArg Prod.fst hp
    have hpy : y = i / m.width := congrArg Prod.snd hp
    have hieq : i = y * m.width + x := by
      rw [hpx, hpy]
      exact (Nat.div_add_mod' i m.width).symm
    refine ⟨?_, h1, h7⟩
    rw [← hieq]
    omega
  · rintro ⟨hb, h1, h7⟩
    refine ⟨y * m.width + x, ?_, ?_, by omega, h1, h7⟩
    · have hmul : (y + 1) * m.width ≤ m.height * m.width :=
        Nat.mul_le_mul_right _ hy
      rw [hlen]
      calc y * m.width + x < y * m.width + m.width := by omega
        _ = (y + 1) * m.width := by ring
        _ ≤ m.height * m.width := hmul
        _ = m.width * m.height := Nat.mul_comm _ _
    · have h1' : (y * m.width + x) % m.width = x := by
        rw [Nat.add_comm, Nat.add_mul_mod_self_right, Nat.mod_eq_of_lt hx]
      have h2' : (y * m.width + x) / m.width = y := by
        rw [Nat.add_comm, Nat.add_mul_div_right _ _ hw,
          Nat.div_eq_of_lt hx, Nat.zero_add]
      rw [h1', h2']

theorem c4_boundary_iff_witness :
    ((0, 0) ∈ collectEdges (Metrics.mk 2 2) [1, 1, 1, 1] ↔
      (0 < ([1, 1, 1, 1] : List Nat).getD (0 * (Metrics.mk 2 2).width + 0) 0 ∧
        1 ≤ emptyCount (Metrics.mk 2 2) [1, 1, 1, 1] (0, 0) ∧
        emptyCount (Metrics.mk 2 2) [1, 1, 1, 1] (0, 0) ≤ 7)) :=
  c4_boundary_iff (Metrics.mk 2 2) [1, 1, 1, 1] 0 0 rfl (by decide)
    (by decide)

/-! ## Supporting lemmas: contour tracing -/

theorem traceFromFuel_nil (w h : Nat) (fuel : Nat) (p : Nat × Nat) :
    traceFromFuel w h fuel p [] = ([], []) := by
  cases fuel with
  | zero => rfl
  | succ f => simp [traceFromFuel]

/-- The inner tracing loop removes at least the neighbor it appends, so
its state shrinks strictly at every iteration. -/
theorem trace_filter_length_lt {edges ne : List (Nat × Nat)}
    {q : Nat × Nat} (hqne : q ∈ ne) (hqe : q ∈ edges) :
    (edges.filter (fun e => ¬ e ∈ ne)).length < edges.length :=
  List.length_filter_lt_length_iff_exists.mpr
    ⟨q, hqe, by simp [hqne]⟩

/-- Any fuel at least `edges.length` computes the same result: the fuel
argument of `traceFromFuel` is exactly the termination measure of the
source's inner `loop`, never a semantic truncation. -/
theorem traceFromFuel_stable (w h : Nat) :
    ∀ (f₁ f₂ : Nat) (p : Nat × Nat) (edges : List (Nat × Nat)),
      edges.length ≤ f₁ → edges.length ≤ f₂ →
      traceFromFuel w h f₁ p edges = traceFromFuel w h f₂ p edges := by
  intro f₁
  induction f₁ with
  | zero =>
    intro f₂ p edges h₁ _
    have : edges = [] := List.length_eq_zero.mp (Nat.le_zero.mp h₁)
    subst this
    rw [traceFromFuel_nil, traceFromFuel_nil]
  | succ g ih =>
    intro f₂ p edges h₁ h₂
    cases edges with
    | nil => rw [traceFromFuel_nil, traceFromFuel_nil]
    | cons e es =>
      cases f₂ with
      | zero => simp at h₂
      | succ g₂ =>
        simp only [traceFromFuel]
        cases hne : ((neighbors p w h false).filterMap id).filter
            (fun x => x ∈ e :: es) with
        | nil => rfl
        | cons q t =>
          dsimp only
          have hq : q ∈ (e :: es) := by
            have hmem : q ∈ ((neighbors p w h false).filterMap id).filter
                (fun x => x ∈ e :: es) := by
              rw [hne]; exact List.mem_cons_self _ _
            exact of_decide_eq_true (List.mem_filter.mp hmem).2
          have hlt : ((e :: es).filter (fun x => ¬ x ∈ q :: t)).length <
              (e :: es).length :=
            trace_filter_length_lt (List.mem_cons_self q t) hq
          rw [ih g₂ q ((e :: es).filter (fun x => ¬ x ∈ q :: t))
            (by omega) (by omega)]

theorem traceFromFuel_rem_length (w h : Nat) :
    ∀ (fuel : Nat) (p : Nat × Nat) (edges : List (Nat × Nat)),
      (traceFromFuel w h fuel p edges).2.length ≤ edges.length := by
  intro fuel
  induction fuel with
  | zero => intro p edges; exact Nat.le_refl _
  | succ g ih =>
    intro p edges
    simp only [traceFromFuel]
    cases hne : ((neighbors p w h false).filterMap id).filter
        (fun x => x ∈ edges) with
    | nil => exact Nat.le_refl _
    | cons q t =>
      dsimp only
      calc (traceFromFuel w h g q
            (edges.filter (fun e => ¬ e ∈ q :: t))).2.length
          ≤ (edges.filter (fun e => ¬ e ∈ q :: t)).length := ih _ _
        _ ≤ edges.length := List.length_filter_le _ _

theorem tracePolysFuel_nil (w h : Nat) (fuel : Nat) :
    tracePolysFuel w h fuel [] = [] := by
  cases fuel <;> rfl

/-- Any fuel at least `edges.length` computes the same contour list: the
fuel of `tracePolysFuel` is exactly the termination measure of the
source's outer `while let` loop. -/
theorem tracePolysFuel_stable (w h : Nat) :
    ∀ (f₁ f₂ : Nat) (edges : List (Nat × Nat)),
      edges.length ≤ f₁ → edges.length ≤ f₂ →
      tracePolysFuel w h f₁ edges = tracePolysFuel w h f₂ edges := by
  intro f₁
  induction f₁ with
  | zero =>
    intro f₂ edges h₁ _
    have : edges = [] := List.length_eq_zero.mp (Nat.le_zero.mp h₁)
    subst this
    rw [tracePolysFuel_nil, tracePolysFuel_nil]
  | succ g ih =>
    intro f₂ edges h₁ h₂
    cases edges with
    | nil => rw [tracePolysFuel_nil, tracePolysFuel_nil]
    | cons first rest =>
      cases f₂ with
      | zero => simp at h₂
      | succ g₂ =>
        simp only [tracePolysFuel]
        have hrem : (traceFrom w h first rest).2.length ≤ rest.length :=
          traceFromFuel_rem_length w h rest.length first rest
        rw [ih g₂ (traceFrom w h first rest).2 (by simp at h₁; omega)
          (by simp at h₂; omega)]

/-- Invariants of the inner tracing loop: the traced tail and the
remaining set both draw from the input set, stay duplicate-free, and are
disjoint from each other. -/
theorem traceFromFuel_spec (w h : Nat) :
    ∀ (fuel : Nat) (p : Nat × Nat) (edges : List (Nat × Nat)),
      edges.Nodup →
      (∀ x ∈ (traceFromFuel w h fuel p edges).1, x ∈ edges) ∧
      (∀ x ∈ (traceFromFuel w h fuel p edges).2, x ∈ edges) ∧
      (traceFromFuel w h fuel p edges).2.Nodup ∧
      (traceFromFuel w h fuel p edges).1.Nodup ∧
      (∀ x ∈ (traceFromFuel w h fuel p edges).1,
        x ∉ (traceFromFuel w h fuel p edges).2) := by
  intro fuel
  induction fuel with
  | zero =>
    intro p edges hnd
    exact ⟨fun x hx => absurd hx (List.not_mem_nil x), fun x hx => hx, hnd,
      List.nodup_nil, fun x hx => absurd hx (List.not_mem_nil x)⟩
  | succ g ih =>
    intro p edges hnd
    simp only [traceFromFuel]
    cases hne : ((neighbors p w h false).filterMap id).filter
        (fun x => x ∈ edges) with
    | nil =>
      exact ⟨fun x hx => absurd hx (List.not_mem_nil x), fun x hx => hx, hnd,
        List.nodup_nil, fun x hx => absurd hx (List.not_mem_nil x)⟩
    | cons q t =>
      dsimp only
      have hq : q ∈ edges := by
        have hmem : q ∈ ((neighbors p w h false).filterMap id).filter
            (fun x => x ∈ edges) := by
          rw [hne]; exact List.mem_cons_self _ _
        exact of_decide_eq_true (List.mem_filter.mp hmem).2
      have hq' : q ∉ edges.filter (fun e => ¬ e ∈ q :: t) := by
        intro hmem
        have := (List.mem_filter.mp hmem).2
        simp at this
      have hsub : ∀ x ∈ edges.filter (fun e => ¬ e ∈ q :: t), x ∈ edges :=
        fun x hx => (List.mem_filter.mp hx).1
      obtain ⟨ht1, ht2, hnd2, hnd1, hdisj⟩ :=
        ih q (edges.filter (fun e => ¬ e ∈ q :: t)) (hnd.filter _)
      refine ⟨?_, ?_, hnd2, ?_, ?_⟩
      · intro x hx
        rcases List.mem_cons.mp hx with rfl | hx
        · exact hq
        · exact hsub x (ht1 x hx)
      · intro x hx
        exact hsub x (ht2 x hx)
      · exact List.nodup_cons.mpr ⟨fun hmem => hq' (ht1 q hmem), hnd1⟩
      · intro x hx
        rcases List.mem_cons.mp hx with rfl | hx
        · exact fun hmem => hq' (ht2 x hmem)
        · exact hdisj x hx

/-- Invariants of the outer tracing loop: no produced contour is empty,
no pixel occurs twice within or across contours, and every contour pixel
comes from the input set. -/
theorem tracePolysFuel_spec (w h : Nat) :
    ∀ (fuel : Nat) (edges : List (Nat × Nat)), edges.Nodup →
      (∀ poly ∈ tracePolysFuel w h fuel edges, poly ≠ []) ∧
      (tracePolysFuel w h fuel edges).flatten.Nodup ∧
      (∀ p ∈ (tracePolysFuel w h fuel edges).flatten, p ∈ edges) := by
  intro fuel
  induction fuel with
  | zero =>
    intro edges _
    exact ⟨fun poly hp => absurd hp (List.not_mem_nil poly), List.nodup_nil,
      fun p hp => absurd hp (List.not_mem_nil p)⟩
  | succ g ih =>
    intro edges hnd
    cases edges with
    | nil =>
      rw [tracePolysFuel_nil]
      exact ⟨fun poly hp => absurd hp (List.not_mem_nil poly),
        List.nodup_nil, fun p hp => absurd hp (List.not_mem_nil p)⟩
    | cons first rest =>
      simp only [tracePolysFuel]
      obtain ⟨hfr, hrest⟩ := List.nodup_cons.mp hnd
      obtain ⟨ht1, ht2, hnd2, hnd1, hdisj⟩ :=
        traceFromFuel_spec w h rest.length first rest hrest
      obtain ⟨hne', hjnd, hjsub⟩ := ih (traceFrom w h first rest).2 hnd2
      have hhead : (first :: (traceFrom w h first rest).1).Nodup :=
        List.nodup_cons.mpr ⟨fun hmem => hfr (ht1 first hmem), hnd1⟩
      refine ⟨?_, ?_, ?_⟩
      · intro poly hp
        rcases List.mem_cons.mp hp with rfl | hp
        · exact List.cons_ne_nil _ _
        · exact hne' poly hp
      · rw [List.flatten_cons, List.nodup_append]
        refine ⟨hhead, hjnd, ?_⟩
        intro x hx hx'
        have hx₂ : x ∈ (traceFrom w h first rest).2 := hjsub x hx'
        rcases List.mem_cons.mp hx with rfl | hx
        · exact hfr (ht2 x hx₂)
        · exact hdisj x hx hx₂
      · intro p hp
        rw [List.flatten_cons, List.mem_append] at hp
        rcases hp with hp | hp
        · rcases List.mem_cons.mp hp with rfl | hp
          · exact List.mem_cons_self _ _
          · exact List.mem_cons_of_mem _ (ht1 p hp)
        · exact List.mem_cons_of_mem _ (ht2 p (hjsub p hp))

/-- C2 (amended): after contour tracing, every contour is nonempty, every
traced pixel comes from the input boundary set, and no pixel is
duplicated within or across contours.  (The original claim — that *every*
input pixel appears in some contour — fails: see the counterexample,
where a pixel removed as an extra unvisited neighbor is assigned to no
contour.) -/
theorem c2_trace_partition (w h : Nat) (edges : List (Nat × Nat))
    (hnd : edges.Nodup) :
    (∀ poly ∈ tracePolys w h edges, poly ≠ []) ∧
    (tracePolys w h edges).flatten.Nodup ∧
    (∀ p ∈ (tracePolys w h edges).flatten, p ∈ edges) :=
  tracePolysFuel_spec w h edges.length edges hnd

/-- C2 (counterexample): on the boundary set `{(0,0), (1,0), (0,1)}` in a
2×2 grid, tracing starts at `(0,0)`, removes both unvisited orthogonal
neighbors `(1,0)` and `(0,1)` but appends only the first, and terminates
with the single contour `[(0,0), (1,0)]`: the input pixel `(0,1)` appears
in no output contour. -/
theorem c2_pixel_dropped :
    tracePolys 2 2 [(0, 0), (1, 0), (0, 1)] = [[(0, 0), (1, 0)]] ∧
    (0, 1) ∈ ([(0, 0), (1, 0), (0, 1)] : List (Nat × Nat)) ∧
    (0, 1) ∉ (tracePolys 2 2 [(0, 0), (1, 0), (0, 1)]).flatten := by
  decide

theorem c2_trace_partition_witness :
    (tracePolys 2 2 [(0, 0), (1, 0), (0, 1)]).flatten.Nodup :=
  (c2_trace_partition 2 2 [(0, 0), (1, 0), (0, 1)] (by decide)).2.1

/-! ## C1, C5, C6: the vectorization pipeline end to end -/

/-- The fill path `vectorize` hands to the tessellator, as a function of
the rasterizer output alone (the pipeline composition of boundary
detection, contour tracing and path building). -/
def vectorPath (font : FontFn) (ch : Char) : List PathEvent :=
  buildPath (tracePolys (font ch bits100).1.width (font ch bits100).1.height
    (collectEdges (font ch bits100).1 (font ch bits100).2))

theorem vectorize_eq (font : FontFn) (tess : Tessellator) (ch : Char)
    (s : Nat) :
    vectorize font tess ch s =
      match tess (vectorPath font ch) with
      | Except.ok g =>
        Except.ok ((font ch bits100).1, GlyphGeometry.mk g.vertices g.indices)
      | Except.error e => Except.error e := rfl

/-- C1 (code evaluated at the failing input): a cache miss of
`glyph('A', 200.0)` stores its result under the caller's key
`('A', bits of 200.0)`, but the metrics stored and returned are the ones
the stub rasterizer produces at size `100.0` (`0×0`), not the ones it
produces at the caller's size `200.0` (`1×1`): the rasterizer was invoked
at the fixed size `100.0`, not the caller's resolution. -/
theorem c1_rasterizes_at_fixed_100 :
    GlyphCache.glyph emptyTess (GlyphCache.mk sizeProbeFont []) 'A'
        bits200 =
      Except.ok
        (GlyphCache.mk sizeProbeFont
          [(('A', bits200), (Metrics.mk 0 0, GlyphGeometry.mk [] []))],
          (Metrics.mk 0 0, GlyphGeometry.mk [] [])) ∧
    (sizeProbeFont 'A' bits200).1 = Metrics.mk 1 1 ∧
    (sizeProbeFont 'A' bits100).1 = Metrics.mk 0 0 :=
  ⟨rfl, by decide, by decide⟩

/-- C5 (amended): `vectorize` has no fallback around tessellation — it
returns exactly what the tessellator returns: the tessellator's geometry
on success (for any contour sequence, degenerate or not), and on a
tessellation error the error itself, i.e. the source's `.unwrap()` panic
aborts the vectorization call. -/
theorem c5_no_tessellation_fallback (font : FontFn) (tess : Tessellator)
    (ch : Char) (s : Nat) :
    (∀ g, tess (vectorPath font ch) = Except.ok g →
      vectorize font tess ch s =
        Except.ok ((font ch bits100).1,
          GlyphGeometry.mk g.vertices g.indices)) ∧
    (∀ e, tess (vectorPath font ch) = Except.error e →
      vectorize font tess ch s = Except.error e) := by
  constructor <;> intro z hz <;> rw [vectorize_eq, hz]

theorem c5_no_tessellation_fallback_witness :
    vectorize stripFont emptyTess 'A' bits100 =
      Except.ok (Metrics.mk 2 1, GlyphGeometry.mk [] []) :=
  (c5_no_tessellation_fallback stripFont emptyTess 'A' bits100).1
    (GlyphGeometry.mk [] []) rfl

/-- C5 (counterexample): a 2×1 fully covered bitmap yields the degenerate
zero-area contour `[(0,0), (1,0)]`; handed to a tessellator that reports
an error on it, `vectorize` aborts with that error instead of producing
empty geometry for the bad contour. -/
theorem c5_degenerate_contour_abort :
    tracePolys 2 1 (collectEdges (Metrics.mk 2 1) [255, 255]) =
      [[(0, 0), (1, 0)]] ∧
    vectorize stripFont failTess 'A' bits100 =
      Except.error "tessellation error" := by
  decide

theorem collectEdges_all_zero {m : Metrics} {bytes : List Nat}
    (hz : ∀ b ∈ bytes, b = 0) : collectEdges m bytes = [] := by
  have hz' : ∀ i, bytes.getD i 0 = 0 := by
    intro i
    by_cases hi : i < bytes.length
    · rw [List.getD_eq_getElem _ _ hi]
      exact hz _ (List.getElem_mem hi)
    · exact List.getD_eq_default _ _ (Nat.le_of_not_lt hi)
  refine List.eq_nil_iff_forall_not_mem.mpr (fun p hp => ?_)
  rcases mem_collectEdges.mp hp with ⟨i, _, _, hb, _⟩
  exact hb (hz' i)

/-- C6: a fully empty coverage bitmap (every byte zero, e.g. the space
character) produces zero boundary pixels and zero contours, and — given
that the external tessellator maps the empty path to empty buffers —
`vectorize` completes without error with a `GlyphGeometry` of 0 vertices
and 0 indices. -/
theorem c6_empty_bitmap (font : FontFn) (tess : Tessellator) (ch : Char)
    (s : Nat) (m : Metrics) (bytes : List Nat)
    (hr : font ch bits100 = (m, bytes))
    (hz : ∀ b ∈ bytes, b = 0)
    (ht : tess [] = Except.ok (GlyphGeometry.mk [] [])) :
    collectEdges m bytes = [] ∧
    tracePolys m.width m.height (collectEdges m bytes) = [] ∧
    vectorize font tess ch s = Except.ok (m, GlyphGeometry.mk [] []) := by
  have hce : collectEdges m bytes = [] := collectEdges_all_zero hz
  have htp : tracePolys m.width m.height (collectEdges m bytes) = [] := by
    rw [hce]; rfl
  refine ⟨hce, htp, ?_⟩
  rw [vectorize_eq]
  have hpath : vectorPath font ch = [] := by
    unfold vectorPath
    rw [hr]
    dsimp only
    rw [hce]
    rfl
  rw [hpath, ht, hr]

theorem c6_empty_bitmap_witness :
    vectorize blankFont emptyTess ' ' bits100 =
      Except.ok (Metrics.mk 1 1, GlyphGeometry.mk [] []) :=
  (c6_empty_bitmap blankFont emptyTess ' ' bits100 (Metrics.mk 1 1) [0]
    rfl (by decide) rfl).2.2

/-! ## C7, C8: the font registry and the draw layer -/

theorem assocLookup_eq_none {α β : Type} [DecidableEq α]
    {l : List (α × β)} {k : α} (h : ∀ kv ∈ l, kv.1 ≠ k) :
    assocLookup l k = none := by
  induction l with
  | nil => rfl
  | cons hd tl ih =>
    obtain ⟨k', v'⟩ := hd
    rw [assocLookup, if_neg (h (k', v') (List.mem_cons_self _ _))]
    exact ih (fun kv hkv => h kv (List.mem_cons_of_mem _ hkv))

/-- C7: a font identifier that was never loaded yields `None` from the
registry lookup, and both `Drawer::character` and `Drawer::text` fall
back to the `Empty` draw type — whose vertex list is empty, so drawing it
renders nothing — instead of failing the draw call. -/
theorem c7_unknown_font {G : Type} [DecidableEq G] (tess : Tessellator)
    (layoutChars : String → Nat → List Char) (f : Fonts G) (fid : G)
    (ch : Char) (str : String) (size : GlyphSize) (col : Col)
    (h : ∀ kv ∈ f.map, kv.1 ≠ fid) :
    Fonts.get f fid = none ∧
    character tess f ch size fid = Except.ok (f, [DrawType.empty]) ∧
    text tess layoutChars f str size fid = Except.ok (f, [DrawType.empty]) ∧
    unscaledVertices col DrawType.empty = [] := by
  have hget : Fonts.get f fid = none := assocLookup_eq_none h
  refine ⟨hget, ?_, ?_, rfl⟩
  · unfold character
    rw [hget]
  · unfold text
    rw [hget]

theorem c7_unknown_font_witness :
    Fonts.get (Fonts.mk ([] : List (Nat × GlyphCache))) 0 = none ∧
    character emptyTess (Fonts.mk ([] : List (Nat × GlyphCache))) 'A'
        (GlyphSize.mk 100 1) 0 =
      Except.ok (Fonts.mk [], [DrawType.empty]) ∧
    text emptyTess (fun _ _ => [])
        (Fonts.mk ([] : List (Nat × GlyphCache))) "hi"
        (GlyphSize.mk 100 1) 0 =
      Except.ok (Fonts.mk [], [DrawType.empty]) ∧
    unscaledVertices (1, 1, 1, 1) DrawType.empty = [] :=
  c7_unknown_font emptyTess (fun _ _ => [])
    (Fonts.mk ([] : List (Nat × GlyphCache))) 0 'A' "hi"
    (GlyphSize.mk 100 1) (1, 1, 1, 1)
    (fun kv hkv => absurd hkv (List.not_mem_nil kv))

/-- C8: when the font bytes fail to parse, `Fonts::load` returns the
distinct load-error value `Error::Static` — a different constructor from
every other error kind — and the registry mapping is unchanged: the
identifier is not registered and no glyph cache is created. -/
theorem c8_load_error {G : Type} [DecidableEq G] (f : Fonts G) (id : G)
    (e : String) :
    Fonts.load f id (Except.error e) =
      (f, Except.error (Error.Static e)) ∧
    (∀ s, Error.Static e ≠ Error.DisplayCreation s) ∧
    (∀ s, Error.Static e ≠ Error.SwapBuffers s) ∧
    (Fonts.load f id (Except.error e)).1.map = f.map := by
  exact ⟨rfl, fun s hc => Error.noConfusion hc,
    fun s hc => Error.noConfusion hc, rfl⟩

theorem c8_load_error_witness :
    Fonts.load (Fonts.mk ([] : List (Nat × GlyphCache))) 0
        (Except.error "parse failure") =
      (Fonts.mk [], Except.error (Error.Static "parse failure")) :=
  (c8_load_error (Fonts.mk ([] : List (Nat × GlyphCache))) 0
    "parse failure").1

end Kule
